import Mathlib

/-!
Verification of the grid scanner in `RMSTest.py`.

The program works on a rectangular grid of integers and offers two operations:

* `find_greatest_product_of_contiguous_integers grid k` — after validating the
  input (k ≥ 1, non-empty rectangular grid) it scans every starting cell and
  each of the four base directions (right, down, down-right, down-left),
  multiplies the `k` cells of every run whose end stays in bounds, and returns
  the maximum product (0 when no run fits).
* `count_unique_combinations_of_length_k grid k` — enumerates the same runs,
  canonicalises each value sequence by taking the lexicographic minimum of the
  sequence and its reverse, and returns the number of distinct canonical
  sequences.

Python exceptions are modelled with `Except String`; Python list indexing
(`xs[i]`, including its negative-index wrap-around and `IndexError`) is
modelled by `pyGet`.
-/

namespace RMSTest

/-- Python list indexing `xs[i]`: a negative index counts from the end, and an
index out of range raises an `IndexError`. -/
def pyGet {α : Type} (xs : List α) (i : Int) : Except String α :=
  let j : Int := if i < 0 then i + xs.length else i
  if h : 0 ≤ j ∧ j.toNat < xs.length then .ok (xs.get ⟨j.toNat, h.2⟩)
  else .error "IndexError"

/-- The four base directions `(dr, dc)` used by both operations:
right, down, down-right, down-left. -/
def directions : List (Int × Int) := [(0, 1), (1, 0), (1, 1), (1, -1)]

/-- All eight directions: the four base directions and their reversals. -/
def allDirections : List (Int × Int) :=
  directions ++ [(0, -1), (-1, 0), (-1, -1), (-1, 1)]

/-- The sequence-building loop shared by both operations: starting at step
index `i`, collect the next `n` cell values `grid[r + i*dr][c + i*dc]`,
propagating any `IndexError`. -/
def buildRun (g : List (List Int)) (r c dr dc : Int) : Nat → Nat → Except String (List Int)
  | _, 0 => .ok []
  | i, Nat.succ n => do
    let row ← pyGet g (r + (i : Int) * dr)
    let v ← pyGet row (c + (i : Int) * dc)
    let rest ← buildRun g r c dr dc (i + 1) n
    pure (v :: rest)

/-- The candidate `(row, column, direction)` triples visited by the triple
loop `for r in range(R): for c in range(C): for (dr, dc) in dirs`. -/
def runsOver (dirs : List (Int × Int)) (R C : Nat) : List (Nat × Nat × Int × Int) :=
  (List.range R).flatMap fun r =>
    (List.range C).flatMap fun c =>
      dirs.map fun d => (r, c, d.1, d.2)

/-- The bounds check `0 <= r + (k-1)*dr < R and 0 <= c + (k-1)*dc < C` on the
end cell of a run. -/
def endInBounds (R C : Nat) (k : Int) (r c : Nat) (dr dc : Int) : Prop :=
  0 ≤ (r : Int) + (k - 1) * dr ∧ (r : Int) + (k - 1) * dr < (R : Int) ∧
  0 ≤ (c : Int) + (k - 1) * dc ∧ (c : Int) + (k - 1) * dc < (C : Int)

instance (R C : Nat) (k : Int) (r c : Nat) (dr dc : Int) :
    Decidable (endInBounds R C k r c dr dc) := by
  unfold endInBounds; infer_instance

/-- One iteration of the product-search loop body: skip the candidate when its
end cell is out of bounds, otherwise multiply the run's cells and update the
running maximum (`None` meaning "no run seen yet"). -/
def fgpStep (g : List (List Int)) (R C : Nat) (k : Int)
    (acc : Option Int) (rcd : Nat × Nat × Int × Int) : Except String (Option Int) :=
  if endInBounds R C k rcd.1 rcd.2.1 rcd.2.2.1 rcd.2.2.2 then do
    let s ← buildRun g rcd.1 rcd.2.1 rcd.2.2.1 rcd.2.2.2 0 k.toNat
    let p := s.foldl (· * ·) 1
    pure (some (match acc with | none => p | some m => max m p))
  else pure acc

/-- `find_greatest_product_of_contiguous_integers(grid, contiguous_integers)`:
validation, then the triple loop over the four base directions, returning the
maximum product found, or 0 when no run fits. -/
def find_greatest_product_of_contiguous_integers
    (g : List (List Int)) (k : Int) : Except String Int :=
  if k < 1 then .error "contiguous_integers must be >= 1"
  else if g.isEmpty then .error "Grid must not be empty"
  else if g.any fun row => row.length != g.headI.length then
    .error "All rows in the grid must have the same length"
  else do
    let acc ← (runsOver directions g.length g.headI.length).foldlM
      (fgpStep g g.length g.headI.length k) none
    pure (acc.getD 0)

/-- Lexicographic comparison of integer sequences, as Python compares tuples:
element-wise, a strict prefix being smaller. -/
def lexLe : List Int → List Int → Bool
  | [], _ => true
  | _ :: _, [] => false
  | a :: as, b :: bs => if a < b then true else if b < a then false else lexLe as bs

/-- `min(fwd, rev)`: the canonical identity of a run's value sequence, the
lexicographically smaller of the sequence and its reverse. -/
def canonical (s : List Int) : List Int :=
  if lexLe s s.reverse then s else s.reverse

/-- One iteration of the counting loop body: skip the candidate when its end
cell is out of bounds, otherwise insert the canonical identity of the run's
value sequence into the seen-set. -/
def cucStep (g : List (List Int)) (R C : Nat) (k : Int)
    (seen : Finset (List Int)) (rcd : Nat × Nat × Int × Int) :
    Except String (Finset (List Int)) :=
  if endInBounds R C k rcd.1 rcd.2.1 rcd.2.2.1 rcd.2.2.2 then do
    let s ← buildRun g rcd.1 rcd.2.1 rcd.2.2.1 rcd.2.2.2 0 k.toNat
    pure (insert (canonical s) seen)
  else pure seen

/-- `count_unique_combinations_of_length_k(grid, k)`: no validation; the triple
loop over the four base directions inserting canonical value sequences into a
set, returning the set's cardinality. -/
def count_unique_combinations_of_length_k
    (g : List (List Int)) (k : Int) : Except String Nat := do
  let R := g.length
  let C := if 0 < R then g.headI.length else 0
  let seen ← (runsOver directions R C).foldlM (cucStep g R C k) (∅ : Finset (List Int))
  pure seen.card

/-! ### Specification-side definitions (oracles, written from the spec's words) -/

/-- Total cell access used by the oracles: the value at row `r`, column `c`,
defaulting to 0 out of bounds (the oracles only ever apply it in bounds). -/
def cellD (g : List (List Int)) (r c : Int) : Int :=
  (g.getD r.toNat []).getD c.toNat 0

/-- The ordered sequence of `k` cell values obtained by stepping from the
start position `k - 1` times along the direction. -/
def specRunVals (g : List (List Int)) (r c dr dc : Int) (k : Nat) : List Int :=
  (List.range k).map fun (i : Nat) => cellD g (r + (i : Int) * dr) (c + (i : Int) * dc)

/-- A grid is rectangular when every row has the first row's length. -/
def Rectangular (g : List (List Int)) : Prop :=
  ∀ row ∈ g, row.length = g.headI.length

instance (g : List (List Int)) : Decidable (Rectangular g) := by
  unfold Rectangular; infer_instance

/-- The product of a candidate run's cell values, or `none` when the run's
end cell is out of bounds. -/
def prodOf (g : List (List Int)) (k : Int) (rcd : Nat × Nat × Int × Int) : Option Int :=
  if endInBounds g.length g.headI.length k rcd.1 rcd.2.1 rcd.2.2.1 rcd.2.2.2 then
    some (specRunVals g rcd.1 rcd.2.1 rcd.2.2.1 rcd.2.2.2 k.toNat).prod
  else none

/-- Oracle: the products of all runs of length `k` over the given direction
set whose end cell is in bounds. -/
def specProducts (dirs : List (Int × Int)) (g : List (List Int)) (k : Int) : List Int :=
  (runsOver dirs g.length g.headI.length).filterMap (prodOf g k)

/-- The maximum of a list of integers, `none` for the empty list. -/
def listMax : List Int → Option Int
  | [] => none
  | x :: xs => some (xs.foldl max x)

/-- Update a running maximum: `None` means "no value seen yet". -/
def omax (a : Option Int) (v : Int) : Option Int :=
  some (match a with | none => v | some m => max m v)

/-- Generic loop body that skips an element when `f` drops it and otherwise
feeds its value to `op`. -/
def ostep {α β γ : Type} (f : α → Option β) (op : γ → β → γ) (acc : γ) (x : α) : γ :=
  match f x with | none => acc | some v => op acc v

/-- Oracle: the maximum product over all runs of length `k` in the given
directions. -/
def specMaxProduct (dirs : List (Int × Int)) (g : List (List Int)) (k : Int) : Option Int :=
  listMax (specProducts dirs g k)

/-- The canonical identity of a candidate run's value sequence, or `none`
when the run's end cell is out of bounds. -/
def canonOf (g : List (List Int)) (k : Int) (rcd : Nat × Nat × Int × Int) :
    Option (List Int) :=
  if endInBounds g.length g.headI.length k rcd.1 rcd.2.1 rcd.2.2.1 rcd.2.2.2 then
    some (canonical (specRunVals g rcd.1 rcd.2.1 rcd.2.2.1 rcd.2.2.2 k.toNat))
  else none

/-- Oracle: the canonical identities of all in-bounds runs of length `k` in
the four base directions, as a list. -/
def specCanonList (g : List (List Int)) (k : Int) : List (List Int) :=
  (runsOver directions g.length g.headI.length).filterMap (canonOf g k)

/-- Oracle: the set of canonical identities of all in-bounds runs of length
`k` in the four base directions. -/
def specCanonSet (g : List (List Int)) (k : Int) : Finset (List Int) :=
  (specCanonList g k).toFinset

/-- Reflect the grid left-right: each row reversed. -/
def reflectLR (g : List (List Int)) : List (List Int) := g.map List.reverse

/-- Reflect the grid top-bottom: the row order reversed. -/
def reflectTB (g : List (List Int)) : List (List Int) := g.reverse

/-- The number of distinct integer values occurring in the grid. -/
def distinctValueCount (g : List (List Int)) : Nat := g.flatten.toFinset.card

/-- The maximum single-cell value occurring in the grid. -/
def gridMaxVal (g : List (List Int)) : Option Int := listMax g.flatten

/-- The documented 10×10 sample grid from the demonstration driver. -/
def sampleGrid : List (List Int) :=
  [[8, 2, 22, 97, 38, 15, 0, 40, 0, 75],
   [49, 49, 99, 40, 17, 81, 18, 57, 60, 87],
   [81, 49, 31, 73, 55, 79, 14, 29, 93, 71],
   [52, 70, 95, 23, 4, 60, 11, 42, 69, 24],
   [22, 31, 16, 71, 51, 67, 63, 89, 41, 92],
   [24, 47, 32, 60, 99, 3, 45, 2, 44, 75],
   [32, 98, 81, 28, 64, 23, 67, 10, 26, 38],
   [67, 26, 20, 68, 2, 62, 12, 20, 95, 63],
   [24, 55, 58, 5, 66, 73, 99, 26, 97, 17],
   [21, 36, 23, 9, 75, 0, 76, 44, 20, 45]]

/-! ### Generic lemmas about folds, indexing and maxima -/

/-- A monadic fold whose step never fails is the pure fold. -/
theorem foldlM_eq_ok {α β : Type} {f : β → α → Except String β} {gf : β → α → β}
    (l : List α) (h : ∀ x ∈ l, ∀ b, f b x = .ok (gf b x)) (b : β) :
    l.foldlM f b = .ok (l.foldl gf b) := by
  induction l generalizing b with
  | nil => rfl
  | cons x xs ih =>
    rw [List.foldlM_cons, h x (by simp)]
    show xs.foldlM f (gf b x) = _
    exact ih (fun y hy b2 => h y (by simp [hy]) b2) (gf b x)

/-- A fold whose step leaves the accumulator unchanged returns it. -/
theorem foldl_fixed_of_id {α β : Type} {f : β → α → β}
    (l : List α) (h : ∀ x ∈ l, ∀ b, f b x = b) (b : β) :
    l.foldl f b = b := by
  induction l generalizing b with
  | nil => rfl
  | cons x xs ih =>
    rw [List.foldl_cons, h x (by simp)]
    exact ih (fun y hy b2 => h y (by simp [hy]) b2) b

/-- Folding over a `filterMap` is folding over the original list, skipping
the elements the function drops. -/
theorem foldl_filterMap_eq {α β γ : Type} (f : α → Option β) (op : γ → β → γ)
    (l : List α) (a : γ) :
    (l.filterMap f).foldl op a = l.foldl (ostep f op) a := by
  induction l generalizing a with
  | nil => rfl
  | cons x xs ih => cases hfx : f x <;> simp [List.filterMap_cons, hfx, ih, ostep]

/-- In-bounds Python indexing with a non-negative index returns the element. -/
theorem pyGet_ok {α : Type} (xs : List α) (d : α) (i : Int)
    (h0 : 0 ≤ i) (h1 : i < xs.length) :
    pyGet xs i = .ok (xs.getD i.toNat d) := by
  have hlt : ¬ i < 0 := by omega
  have hmem : i.toNat < xs.length := by omega
  simp only [pyGet, if_neg hlt]
  rw [dif_pos ⟨h0, hmem⟩]
  rw [List.getD_eq_getElem xs d hmem]
  rfl

/-- Every intermediate step of a run lies between its start and its end:
if the start and the end of the run are inside `[0, n)`, so is every step. -/
theorem step_in_range {a d n : Int} (m : Int) (ha0 : 0 ≤ a) (han : a < n)
    (hb0 : 0 ≤ a + m * d) (hbn : a + m * d < n) {i : Int} (hi0 : 0 ≤ i) (him : i ≤ m) :
    0 ≤ a + i * d ∧ a + i * d < n := by
  rcases le_or_lt 0 d with hd | hd
  · have h1 : i * d ≤ m * d := mul_le_mul_of_nonneg_right him hd
    have h2 : 0 ≤ i * d := mul_nonneg hi0 hd
    omega
  · have h1 : m * d ≤ i * d := mul_le_mul_of_nonpos_right him hd.le
    have h2 : i * d ≤ 0 := mul_nonpos_of_nonneg_of_nonpos hi0 hd.le
    omega

/-- When every visited cell is in bounds, the sequence-building loop succeeds
and returns the corresponding cell values. -/
theorem buildRun_ok (g : List (List Int)) (C : Nat)
    (hrect : ∀ row ∈ g, row.length = C) (r c dr dc : Int) :
    ∀ (n i : Nat),
      (∀ j : Nat, i ≤ j → j < i + n →
        0 ≤ r + (j : Int) * dr ∧ r + (j : Int) * dr < (g.length : Int) ∧
        0 ≤ c + (j : Int) * dc ∧ c + (j : Int) * dc < (C : Int)) →
      buildRun g r c dr dc i n =
        .ok ((List.range n).map fun t =>
          cellD g (r + ((i + t : Nat) : Int) * dr) (c + ((i + t : Nat) : Int) * dc)) := by
  intro n
  induction n with
  | zero => intro i _; rfl
  | succ n ih =>
    intro i hin
    have hi := hin i (le_refl i) (by omega)
    have hrow : pyGet g (r + (i : Int) * dr) = .ok (g.getD (r + (i : Int) * dr).toNat []) :=
      pyGet_ok g [] _ hi.1 hi.2.1
    have hrowmem : (g.getD (r + (i : Int) * dr).toNat []) ∈ g := by
      have hlt : (r + (i : Int) * dr).toNat < g.length := by omega
      rw [List.getD_eq_getElem g [] hlt]
      exact List.getElem_mem hlt
    have hrowlen : (g.getD (r + (i : Int) * dr).toNat []).length = C := hrect _ hrowmem
    have hval : pyGet (g.getD (r + (i : Int) * dr).toNat []) (c + (i : Int) * dc) =
        .ok ((g.getD (r + (i : Int) * dr).toNat []).getD (c + (i : Int) * dc).toNat 0) :=
      pyGet_ok _ 0 _ hi.2.2.1 (by rw [hrowlen]; exact_mod_cast hi.2.2.2)
    have hrest := ih (i + 1) (fun j hj1 hj2 => hin j (by omega) (by omega))
    show (do
      let row ← pyGet g (r + (i : Int) * dr)
      let v ← pyGet row (c + (i : Int) * dc)
      let rest ← buildRun g r c dr dc (i + 1) n
      pure (v :: rest) : Except String (List Int)) = _
    rw [hrow]
    show (do
      let v ← pyGet (g.getD (r + (i : Int) * dr).toNat []) (c + (i : Int) * dc)
      let rest ← buildRun g r c dr dc (i + 1) n
      pure (v :: rest) : Except String (List Int)) = _
    rw [hval, hrest]
    show Except.ok _ = Except.ok _
    congr 1
    rw [List.range_succ_eq_map, List.map_cons, List.map_map]
    congr 1
    apply List.map_congr_left
    intro t _
    simp only [Function.comp_apply]
    congr 2 <;> push_cast <;> ring

/-- `List.foldl max` dominates its seed and every list element. -/
theorem foldl_max_bounds (xs : List Int) : ∀ a : Int,
    a ≤ xs.foldl max a ∧ ∀ x ∈ xs, x ≤ xs.foldl max a := by
  induction xs with
  | nil => intro a; exact ⟨le_refl a, by simp⟩
  | cons y ys ih =>
    intro a
    have h := ih (max a y)
    refine ⟨le_trans (le_max_left a y) h.1, ?_⟩
    intro x hx
    rcases List.mem_cons.mp hx with rfl | hx2
    · exact le_trans (le_max_right a x) h.1
    · exact h.2 x hx2

/-- `List.foldl max` returns its seed or one of the list's elements. -/
theorem foldl_max_mem (xs : List Int) : ∀ a : Int,
    xs.foldl max a = a ∨ xs.foldl max a ∈ xs := by
  induction xs with
  | nil => intro a; left; rfl
  | cons y ys ih =>
    intro a
    rw [List.foldl_cons]
    rcases ih (max a y) with h | h
    · rw [h]
      rcases max_choice a y with hm | hm
      · left; exact hm
      · right; rw [hm]; exact List.mem_cons_self y ys
    · right; exact List.mem_cons_of_mem y h

/-- `listMax` returns exactly the greatest element of a non-empty list. -/
theorem listMax_eq_some_iff {l : List Int} {m : Int} :
    listMax l = some m ↔ m ∈ l ∧ ∀ x ∈ l, x ≤ m := by
  cases l with
  | nil => simp [listMax]
  | cons x xs =>
    simp only [listMax, Option.some.injEq]
    constructor
    · rintro rfl
      refine ⟨?_, ?_⟩
      · rcases foldl_max_mem xs x with h | h
        · rw [h]; exact List.mem_cons_self x xs
        · exact List.mem_cons_of_mem x h
      · intro y hy
        rcases List.mem_cons.mp hy with rfl | hy2
        · exact (foldl_max_bounds xs y).1
        · exact (foldl_max_bounds xs x).2 y hy2
    · rintro ⟨hmem, hub⟩
      apply le_antisymm
      · rcases foldl_max_mem xs x with h | h
        · rw [h]; exact hub x (List.mem_cons_self x xs)
        · exact hub _ (List.mem_cons_of_mem x h)
      · rcases List.mem_cons.mp hmem with rfl | h2
        · exact (foldl_max_bounds xs m).1
        · exact (foldl_max_bounds xs x).2 m h2

/-- `listMax` is `none` exactly on the empty list. -/
theorem listMax_eq_none_iff {l : List Int} : listMax l = none ↔ l = [] := by
  cases l <;> simp [listMax]

/-- Two lists with the same elements have the same maximum. -/
theorem listMax_congr {l1 l2 : List Int}
    (h1 : ∀ x ∈ l1, x ∈ l2) (h2 : ∀ x ∈ l2, x ∈ l1) : listMax l1 = listMax l2 := by
  rcases hm1 : listMax l1 with _ | m1
  · have he : l1 = [] := listMax_eq_none_iff.mp hm1
    subst he
    rcases hm2 : listMax l2 with _ | m2
    · rfl
    · exact absurd (h2 m2 (listMax_eq_some_iff.mp hm2).1) (by simp)
  · obtain ⟨hmem1, hub1⟩ := listMax_eq_some_iff.mp hm1
    rcases hm2 : listMax l2 with _ | m2
    · have he : l2 = [] := listMax_eq_none_iff.mp hm2
      subst he
      exact absurd (h1 m1 hmem1) (by simp)
    · obtain ⟨hmem2, hub2⟩ := listMax_eq_some_iff.mp hm2
      rw [le_antisymm (hub2 m1 (h1 m1 hmem1)) (hub1 m2 (h2 m2 hmem2))]

/-- Folding `omax` from a value is folding `max`. -/
theorem foldl_omax_some (l : List Int) : ∀ a : Int,
    l.foldl omax (some a) = some (l.foldl max a) := by
  induction l with
  | nil => intro a; rfl
  | cons x xs ih => intro a; exact ih (max a x)

/-- Folding `omax` from `none` computes the list's maximum. -/
theorem foldl_omax_none (l : List Int) : l.foldl omax none = listMax l := by
  cases l with
  | nil => rfl
  | cons x xs => exact foldl_omax_some xs x

/-- Membership in the candidate enumeration. -/
theorem mem_runsOver {dirs : List (Int × Int)} {R C : Nat} {r c : Nat} {dr dc : Int} :
    (r, c, dr, dc) ∈ runsOver dirs R C ↔ r < R ∧ c < C ∧ (dr, dc) ∈ dirs := by
  simp only [runsOver, List.mem_flatMap, List.mem_map, List.mem_range]
  constructor
  · rintro ⟨r2, hr2, c2, hc2, ⟨d1, d2⟩, hd, heq⟩
    simp only [Prod.mk.injEq] at heq
    obtain ⟨e1, e2, e3, e4⟩ := heq
    subst e1; subst e2; subst e3; subst e4
    exact ⟨hr2, hc2, hd⟩
  · rintro ⟨hr, hc, hd⟩
    exact ⟨r, hr, c, hc, (dr, dc), hd, rfl⟩

/-- On a rectangular grid, a candidate whose end cell is in bounds is built
without error, and its values are the spec's cell values. -/
theorem run_ok (g : List (List Int)) (hrect : Rectangular g) (r c : Nat) (dr dc : Int)
    (k : Int) (hr : r < g.length) (hc : c < g.headI.length)
    (hend : endInBounds g.length g.headI.length k r c dr dc) :
    buildRun g r c dr dc 0 k.toNat = .ok (specRunVals g r c dr dc k.toNat) := by
  obtain ⟨he1, he2, he3, he4⟩ := hend
  have h := buildRun_ok g g.headI.length hrect r c dr dc k.toNat 0 ?bounds
  · rw [h]
    congr 1
    unfold specRunVals
    apply List.map_congr_left
    intro t _
    simp
  case bounds =>
    intro j hj0 hjn
    have hj1 : (0 : Int) ≤ (j : Int) := by omega
    have hjk : (j : Int) ≤ k - 1 := by omega
    have hrj := step_in_range (k - 1) (show (0 : Int) ≤ (r : Int) by omega)
      (show ((r : Nat) : Int) < (g.length : Int) by omega) he1 he2 hj1 hjk
    have hcj := step_in_range (k - 1) (show (0 : Int) ≤ (c : Int) by omega)
      (show ((c : Nat) : Int) < (g.headI.length : Int) by omega) he3 he4 hj1 hjk
    exact ⟨hrj.1, hrj.2, hcj.1, hcj.2⟩

/-- On a rectangular grid, one product-search step never fails and acts as
the pure maximum update over `prodOf`. -/
theorem fgpStep_ok (g : List (List Int)) (hrect : Rectangular g) (k : Int)
    (rcd : Nat × Nat × Int × Int)
    (hmem : rcd ∈ runsOver directions g.length g.headI.length) (acc : Option Int) :
    fgpStep g g.length g.headI.length k acc rcd =
      .ok (ostep (prodOf g k) omax acc rcd) := by
  obtain ⟨r, c, dr, dc⟩ := rcd
  obtain ⟨hr, hc, _⟩ := mem_runsOver.mp hmem
  by_cases hend : endInBounds g.length g.headI.length k r c dr dc
  · unfold fgpStep ostep prodOf
    rw [if_pos hend, if_pos hend, run_ok g hrect r c dr dc k hr hc hend]
    show Except.ok _ = Except.ok _
    rw [List.prod_eq_foldl]
    rfl
  · unfold fgpStep ostep prodOf
    rw [if_neg hend, if_neg hend]
    rfl

/-- On a rectangular grid, the whole product-search fold never fails and
computes the `omax`-fold of the candidate products. -/
theorem fgp_fold_ok (g : List (List Int)) (hrect : Rectangular g) (k : Int)
    (acc : Option Int) :
    (runsOver directions g.length g.headI.length).foldlM
        (fgpStep g g.length g.headI.length k) acc =
      .ok ((specProducts directions g k).foldl omax acc) := by
  rw [foldlM_eq_ok (runsOver directions g.length g.headI.length)
    (fun rcd hmem b => fgpStep_ok g hrect k rcd hmem b) acc]
  congr 1
  rw [specProducts, foldl_filterMap_eq]

/-- On a valid input, `find_greatest_product_of_contiguous_integers` returns
the maximum of the base-direction run products, defaulting to 0. -/
theorem find_eq_of_valid (g : List (List Int)) (k : Int) (hk : 1 ≤ k) (hne : g ≠ [])
    (hrect : Rectangular g) :
    find_greatest_product_of_contiguous_integers g k =
      .ok ((listMax (specProducts directions g k)).getD 0) := by
  have hany : (g.any fun row => row.length != g.headI.length) = false := by
    rw [List.any_eq_false]
    intro row hrow
    simp [hrect row hrow]
  unfold find_greatest_product_of_contiguous_integers
  rw [if_neg (by omega : ¬ k < 1),
    if_neg (show ¬ (g.isEmpty = true) by simp [hne]),
    if_neg (show ¬ ((g.any fun row => row.length != g.headI.length) = true) by
      rw [hany]; simp)]
  rw [show (do
      let acc ← (runsOver directions g.length g.headI.length).foldlM
        (fgpStep g g.length g.headI.length k) none
      pure (acc.getD 0) : Except String Int) =
    (do
      let acc ← Except.ok ((specProducts directions g k).foldl omax none)
      pure (acc.getD 0) : Except String Int) from by rw [fgp_fold_ok g hrect k none]]
  rw [foldl_omax_none]
  rfl

/-- Membership in the oracle's product list. -/
theorem mem_specProducts {dirs : List (Int × Int)} {g : List (List Int)} {k : Int}
    {p : Int} :
    p ∈ specProducts dirs g k ↔
      ∃ (r c : Nat) (dr dc : Int), r < g.length ∧ c < g.headI.length ∧
        (dr, dc) ∈ dirs ∧ endInBounds g.length g.headI.length k r c dr dc ∧
        p = (specRunVals g r c dr dc k.toNat).prod := by
  unfold specProducts
  rw [List.mem_filterMap]
  constructor
  · rintro ⟨⟨r, c, dr, dc⟩, hmem, hp⟩
    obtain ⟨hr, hc, hd⟩ := mem_runsOver.mp hmem
    unfold prodOf at hp
    by_cases hend : endInBounds g.length g.headI.length k r c dr dc
    · rw [if_pos hend] at hp
      exact ⟨r, c, dr, dc, hr, hc, hd, hend, (Option.some.injEq _ _).mp hp |>.symm⟩
    · rw [if_neg hend] at hp
      cases hp
  · rintro ⟨r, c, dr, dc, hr, hc, hd, hend, rfl⟩
    refine ⟨(r, c, dr, dc), mem_runsOver.mpr ⟨hr, hc, hd⟩, ?_⟩
    unfold prodOf
    rw [if_pos hend]

/-- Reversing a run's value sequence is traversing it from its end cell in
the opposite direction. -/
theorem specRunVals_reverse (g : List (List Int)) (r c dr dc : Int) (n : Nat) :
    (specRunVals g r c dr dc (n + 1)).reverse =
      specRunVals g (r + (n : Int) * dr) (c + (n : Int) * dc) (-dr) (-dc) (n + 1) := by
  apply List.ext_getElem
  · simp [specRunVals]
  · intro t h1 h2
    have ht : t ≤ n := by
      simp only [List.length_reverse, specRunVals, List.length_map,
        List.length_range] at h1
      omega
    rw [List.getElem_reverse]
    simp only [specRunVals, List.length_map, List.length_range, List.getElem_map,
      List.getElem_range]
    have hcast : ((n + 1 - 1 - t : Nat) : Int) = (n : Int) - (t : Int) := by omega
    have hA : r + ((n + 1 - 1 - t : Nat) : Int) * dr =
        (r + (n : Int) * dr) + (t : Int) * (-dr) := by rw [hcast]; ring
    have hB : c + ((n + 1 - 1 - t : Nat) : Int) * dc =
        (c + (n : Int) * dc) + (t : Int) * (-dc) := by rw [hcast]; ring
    rw [hA, hB]

/-- Every valid run has a valid reversed run with the same product. -/
theorem specProducts_mem_reverse {g : List (List Int)} {k : Int} (hk : 1 ≤ k)
    (r c : Nat) (dr dc : Int) (hr : r < g.length) (hc : c < g.headI.length)
    (hend : endInBounds g.length g.headI.length k r c dr dc) :
    ∃ (r2 c2 : Nat), r2 < g.length ∧ c2 < g.headI.length ∧
      endInBounds g.length g.headI.length k r2 c2 (-dr) (-dc) ∧
      (specRunVals g r2 c2 (-dr) (-dc) k.toNat).prod =
        (specRunVals g r c dr dc k.toNat).prod := by
  obtain ⟨he1, he2, he3, he4⟩ := hend
  have e1 : (r : Int) + (k - 1) * dr + (k - 1) * (-dr) = (r : Int) := by ring
  have e2 : (c : Int) + (k - 1) * dc + (k - 1) * (-dc) = (c : Int) := by ring
  refine ⟨((r : Int) + (k - 1) * dr).toNat, ((c : Int) + (k - 1) * dc).toNat,
    by omega, by omega, ?_, ?_⟩
  · unfold endInBounds
    rw [Int.toNat_of_nonneg he1, Int.toNat_of_nonneg he3, e1, e2]
    refine ⟨by omega, by omega, by omega, by omega⟩
  · have hkn : k.toNat = (k.toNat - 1) + 1 := by omega
    have hn : ((k.toNat - 1 : Nat) : Int) = k - 1 := by omega
    rw [Int.toNat_of_nonneg he1, Int.toNat_of_nonneg he3, hkn, ← hn,
      ← specRunVals_reverse, List.prod_reverse]

/-- Every eight-direction run product is a base-direction run product. -/
theorem specProducts_subset_base {g : List (List Int)} {k : Int} (hk : 1 ≤ k) :
    ∀ p ∈ specProducts allDirections g k, p ∈ specProducts directions g k := by
  intro p hp
  rw [mem_specProducts] at hp ⊢
  obtain ⟨r, c, dr, dc, hr, hc, hd, hend, rfl⟩ := hp
  have hd2 : (dr, dc) ∈ directions ∨
      (dr, dc) ∈ [((0 : Int), (-1 : Int)), (-1, 0), (-1, -1), (-1, 1)] := by
    unfold allDirections at hd
    exact List.mem_append.mp hd
  rcases hd2 with hd2 | hd2
  · exact ⟨r, c, dr, dc, hr, hc, hd2, hend, rfl⟩
  · have hrev := specProducts_mem_reverse hk r c dr dc hr hc hend
    obtain ⟨r2, c2, h1, h2, h3, h4⟩ := hrev
    refine ⟨r2, c2, -dr, -dc, h1, h2, ?_, h3, h4.symm⟩
    simp only [List.mem_cons, Prod.mk.injEq, List.not_mem_nil, or_false] at hd2
    rcases hd2 with ⟨e1, e2⟩ | ⟨e1, e2⟩ | ⟨e1, e2⟩ | ⟨e1, e2⟩ <;>
      subst e1 <;> subst e2 <;> decide

/-- The eight-direction maximum equals the base-direction maximum: reversing
a run does not change its product. -/
theorem specMaxProduct_all_eq_base (g : List (List Int)) (k : Int) (hk : 1 ≤ k) :
    specMaxProduct allDirections g k = specMaxProduct directions g k := by
  unfold specMaxProduct
  apply listMax_congr
  · exact specProducts_subset_base hk
  · intro p hp
    rw [mem_specProducts] at hp ⊢
    obtain ⟨r, c, dr, dc, hr, hc, hd, hend, rfl⟩ := hp
    exact ⟨r, c, dr, dc, hr, hc,
      by unfold allDirections; exact List.mem_append_left _ hd, hend, rfl⟩

/-- With `1 ≤ k ≤ cols` and at least one row, a rightward run from the
top-left corner is valid, so the product list is non-empty. -/
theorem specProducts_base_ne_nil (g : List (List Int)) (k : Int) (hk1 : 1 ≤ k)
    (hR : 0 < g.length) (hkC : k ≤ (g.headI.length : Int)) :
    specProducts directions g k ≠ [] := by
  have hmem : (specRunVals g 0 0 0 1 k.toNat).prod ∈ specProducts directions g k := by
    rw [mem_specProducts]
    refine ⟨0, 0, 0, 1, hR, by omega, by decide, ?_, by norm_num⟩
    unfold endInBounds
    refine ⟨by omega, by omega, by omega, by omega⟩
  intro hnil
  rw [hnil] at hmem
  cases hmem

/-- For `k = 1`, the base-direction run products are exactly the grid's cell
values. -/
theorem mem_specProducts_one {g : List (List Int)} (hrect : Rectangular g) {p : Int} :
    p ∈ specProducts directions g 1 ↔ p ∈ g.flatten := by
  rw [mem_specProducts]
  constructor
  · rintro ⟨r, c, dr, dc, hr, hc, hd, hend, rfl⟩
    have hvals : specRunVals g r c dr dc 1 = [cellD g (r : Int) (c : Int)] := by
      simp [specRunVals, show List.range 1 = [0] from rfl]
    rw [show (1 : Int).toNat = 1 from rfl, hvals]
    simp only [List.prod_cons, List.prod_nil, mul_one]
    rw [List.mem_flatten]
    have hmemr : g.getD r [] ∈ g := by
      rw [List.getD_eq_getElem g [] hr]; exact List.getElem_mem hr
    refine ⟨g.getD r [], hmemr, ?_⟩
    unfold cellD
    rw [Int.toNat_natCast, Int.toNat_natCast]
    have hcl : c < (g.getD r []).length := by
      rw [hrect _ hmemr]; exact hc
    rw [List.getD_eq_getElem _ 0 hcl]
    exact List.getElem_mem hcl
  · intro hp
    rw [List.mem_flatten] at hp
    obtain ⟨row, hrow, hmem⟩ := hp
    obtain ⟨r, hr, hrowr⟩ := List.mem_iff_getElem.mp hrow
    obtain ⟨c, hc, hvc⟩ := List.mem_iff_getElem.mp hmem
    have hlen : row.length = g.headI.length := hrect row hrow
    refine ⟨r, c, 0, 1, hr, by omega, by decide, ?_, ?_⟩
    · unfold endInBounds
      refine ⟨by omega, by omega, by omega, by omega⟩
    · have hvals : specRunVals g r c 0 1 1 = [cellD g (r : Int) (c : Int)] := by
        simp [specRunVals, show List.range 1 = [0] from rfl]
      rw [show (1 : Int).toNat = 1 from rfl, hvals]
      simp only [List.prod_cons, List.prod_nil, mul_one]
      unfold cellD
      rw [Int.toNat_natCast, Int.toNat_natCast, List.getD_eq_getElem g [] hr, hrowr,
        List.getD_eq_getElem row 0 hc, hvc]

/-! ### The counting operation -/

/-- Folding set-insertion over a `filterMap` collects the kept values. -/
theorem foldl_insert_filterMap {α β : Type} [DecidableEq β] (f : α → Option β)
    (l : List α) : ∀ s : Finset β,
    l.foldl (ostep f (fun acc v => insert v acc)) s = s ∪ (l.filterMap f).toFinset := by
  induction l with
  | nil => intro s; simp
  | cons x xs ih =>
    intro s
    rw [List.foldl_cons, List.filterMap_cons]
    cases hfx : f x with
    | none => simp only [ostep, hfx, ih]
    | some v =>
      simp only [ostep, hfx, ih, List.toFinset_cons, Finset.union_insert,
        Finset.insert_union]

/-- On a rectangular grid, one counting step never fails and acts as the
pure insertion over `canonOf`. -/
theorem cucStep_ok (g : List (List Int)) (hrect : Rectangular g) (k : Int)
    (rcd : Nat × Nat × Int × Int)
    (hmem : rcd ∈ runsOver directions g.length g.headI.length)
    (seen : Finset (List Int)) :
    cucStep g g.length g.headI.length k seen rcd =
      .ok (ostep (canonOf g k) (fun acc v => insert v acc) seen rcd) := by
  obtain ⟨r, c, dr, dc⟩ := rcd
  obtain ⟨hr, hc, _⟩ := mem_runsOver.mp hmem
  by_cases hend : endInBounds g.length g.headI.length k r c dr dc
  · unfold cucStep ostep canonOf
    rw [if_pos hend, if_pos hend, run_ok g hrect r c dr dc k hr hc hend]
    rfl
  · unfold cucStep ostep canonOf
    rw [if_neg hend, if_neg hend]
    rfl

/-- On a non-empty rectangular grid, the counting operation never fails and
returns the cardinality of the canonical-identity set, for every `k`. -/
theorem count_eq_of_rect (g : List (List Int)) (hne : g ≠ []) (hrect : Rectangular g)
    (k : Int) :
    count_unique_combinations_of_length_k g k = .ok (specCanonSet g k).card := by
  unfold count_unique_combinations_of_length_k
  show (do
    let seen ← List.foldlM (cucStep g g.length (if 0 < g.length then g.headI.length else 0) k)
      ∅ (runsOver directions g.length (if 0 < g.length then g.headI.length else 0))
    pure seen.card : Except String Nat) = _
  rw [if_pos (List.length_pos.mpr hne)]
  rw [foldlM_eq_ok (runsOver directions g.length g.headI.length)
    (fun rcd hmem b => cucStep_ok g hrect k rcd hmem b) ∅]
  rw [foldl_insert_filterMap, Finset.empty_union]
  rfl

/-- `lexLe` is total. -/
theorem lexLe_total (a : List Int) : ∀ b : List Int, lexLe a b = true ∨ lexLe b a = true := by
  induction a with
  | nil => intro b; left; rfl
  | cons x xs ih =>
    intro b
    cases b with
    | nil => right; rfl
    | cons y ys =>
      by_cases hxy : x < y
      · left; unfold lexLe; rw [if_pos hxy]
      · by_cases hyx : y < x
        · right; unfold lexLe; rw [if_pos hyx]
        · rcases ih ys with h | h
          · left; unfold lexLe; rw [if_neg hxy, if_neg hyx]; exact h
          · right; unfold lexLe; rw [if_neg hyx, if_neg hxy]; exact h

/-- `lexLe` is antisymmetric. -/
theorem lexLe_antisymm (a : List Int) :
    ∀ b : List Int, lexLe a b = true → lexLe b a = true → a = b := by
  induction a with
  | nil =>
    intro b hab hba
    cases b with
    | nil => rfl
    | cons y ys => exact Bool.noConfusion hba
  | cons x xs ih =>
    intro b hab hba
    cases b with
    | nil => exact Bool.noConfusion hab
    | cons y ys =>
      unfold lexLe at hab hba
      by_cases hxy : x < y
      · rw [if_neg (lt_asymm hxy), if_pos hxy] at hba
        exact Bool.noConfusion hba
      · by_cases hyx : y < x
        · rw [if_neg hxy, if_pos hyx] at hab
          exact Bool.noConfusion hab
        · rw [if_neg hxy, if_neg hyx] at hab
          rw [if_neg hyx, if_neg hxy] at hba
          have hxe : x = y := le_antisymm (not_lt.mp hyx) (not_lt.mp hxy)
          rw [hxe, ih ys hab hba]

/-- The canonical identity of a reversed sequence is the identity of the
sequence itself. -/
theorem canonical_reverse (s : List Int) : canonical s.reverse = canonical s := by
  unfold canonical
  rw [List.reverse_reverse]
  by_cases h1 : lexLe s s.reverse
  · rw [if_pos h1]
    by_cases h2 : lexLe s.reverse s
    · rw [if_pos h2]; exact lexLe_antisymm _ _ h2 h1
    · rw [if_neg h2]
  · rw [if_neg h1]
    rcases lexLe_total s s.reverse with h | h
    · exact absurd h h1
    · rw [if_pos h]

/-- `canonical` returns the sequence or its reverse. -/
theorem canonical_cases (s : List Int) : canonical s = s ∨ canonical s = s.reverse := by
  unfold canonical
  by_cases h : lexLe s s.reverse
  · left; rw [if_pos h]
  · right; rw [if_neg h]

/-- Two sequences share a canonical identity exactly when they are equal
directly or after reversal. -/
theorem canonical_eq_iff {s t : List Int} :
    canonical s = canonical t ↔ (s = t ∨ s = t.reverse) := by
  constructor
  · intro h
    rcases canonical_cases s with hs | hs <;> rcases canonical_cases t with htc | htc
    · left; rw [← hs, h, htc]
    · right; rw [← hs, h, htc]
    · have hrev : s.reverse = t := by rw [← hs, h, htc]
      right; rw [← hrev, List.reverse_reverse]
    · have hrev : s.reverse = t.reverse := by rw [← hs, h, htc]
      left; exact List.reverse_injective hrev
  · rintro (rfl | rfl)
    · rfl
    · exact canonical_reverse t

/-- The canonical identity of a one-element sequence is itself. -/
theorem canonical_singleton (v : Int) : canonical [v] = [v] := by
  have hl : lexLe [v] [v] = true := by
    show (if v < v then true else if v < v then false else lexLe [] []) = true
    rw [if_neg (lt_irrefl v), if_neg (lt_irrefl v)]
    rfl
  unfold canonical
  rw [show ([v] : List Int).reverse = [v] from rfl, if_pos hl]

/-- Membership in the oracle's canonical-identity set. -/
theorem mem_specCanonSet {g : List (List Int)} {k : Int} {x : List Int} :
    x ∈ specCanonSet g k ↔
      ∃ (r c : Nat) (dr dc : Int), r < g.length ∧ c < g.headI.length ∧
        (dr, dc) ∈ directions ∧ endInBounds g.length g.headI.length k r c dr dc ∧
        x = canonical (specRunVals g r c dr dc k.toNat) := by
  unfold specCanonSet specCanonList
  rw [List.mem_toFinset, List.mem_filterMap]
  constructor
  · rintro ⟨⟨r, c, dr, dc⟩, hmem, hp⟩
    obtain ⟨hr, hc, hd⟩ := mem_runsOver.mp hmem
    unfold canonOf at hp
    by_cases hend : endInBounds g.length g.headI.length k r c dr dc
    · rw [if_pos hend] at hp
      exact ⟨r, c, dr, dc, hr, hc, hd, hend, (Option.some.injEq _ _).mp hp |>.symm⟩
    · rw [if_neg hend] at hp
      cases hp
  · rintro ⟨r, c, dr, dc, hr, hc, hd, hend, rfl⟩
    refine ⟨(r, c, dr, dc), mem_runsOver.mpr ⟨hr, hc, hd⟩, ?_⟩
    unfold canonOf
    rw [if_pos hend]

/-- Every valid run has a valid reversed run carrying the reversed values. -/
theorem reverse_run_exists {g : List (List Int)} {k : Int} (hk : 1 ≤ k)
    (r c : Nat) (dr dc : Int) (hr : r < g.length) (hc : c < g.headI.length)
    (hend : endInBounds g.length g.headI.length k r c dr dc) :
    ∃ (r2 c2 : Nat), r2 < g.length ∧ c2 < g.headI.length ∧
      endInBounds g.length g.headI.length k r2 c2 (-dr) (-dc) ∧
      specRunVals g r2 c2 (-dr) (-dc) k.toNat =
        (specRunVals g r c dr dc k.toNat).reverse := by
  obtain ⟨he1, he2, he3, he4⟩ := hend
  have e1 : (r : Int) + (k - 1) * dr + (k - 1) * (-dr) = (r : Int) := by ring
  have e2 : (c : Int) + (k - 1) * dc + (k - 1) * (-dc) = (c : Int) := by ring
  refine ⟨((r : Int) + (k - 1) * dr).toNat, ((c : Int) + (k - 1) * dc).toNat,
    by omega, by omega, ?_, ?_⟩
  · unfold endInBounds
    rw [Int.toNat_of_nonneg he1, Int.toNat_of_nonneg he3, e1, e2]
    exact ⟨by omega, by omega, by omega, by omega⟩
  · have hkn : k.toNat = (k.toNat - 1) + 1 := by omega
    have hn : ((k.toNat - 1 : Nat) : Int) = k - 1 := by omega
    rw [Int.toNat_of_nonneg he1, Int.toNat_of_nonneg he3, hkn, ← hn,
      ← specRunVals_reverse]

/-- A run whose direction or reversed direction is a base direction
contributes its canonical identity to the canonical set. -/
theorem canon_mem_of_dir (g : List (List Int)) (k : Int) (hk : 1 ≤ k)
    (r c : Nat) (dr dc : Int) (hr : r < g.length) (hc : c < g.headI.length)
    (hend : endInBounds g.length g.headI.length k r c dr dc)
    (hdir : (dr, dc) ∈ directions ∨ (-dr, -dc) ∈ directions) :
    canonical (specRunVals g r c dr dc k.toNat) ∈ specCanonSet g k := by
  rcases hdir with hdir | hdir
  · rw [mem_specCanonSet]
    exact ⟨r, c, dr, dc, hr, hc, hdir, hend, rfl⟩
  · obtain ⟨r2, c2, h1, h2, h3, h4⟩ := reverse_run_exists hk r c dr dc hr hc hend
    rw [mem_specCanonSet]
    refine ⟨r2, c2, -dr, -dc, h1, h2, hdir, h3, ?_⟩
    rw [h4, canonical_reverse]

/-! ### Grid reflections -/

/-- The default head of a non-empty list is a member. -/
theorem headI_mem_of_ne_nil {α : Type} [Inhabited α] {l : List α} (h : l ≠ []) :
    l.headI ∈ l := by
  cases l with
  | nil => exact absurd rfl h
  | cons a t => exact List.mem_cons_self a t

/-- `getD` on a reversed list reads from the mirrored index. -/
theorem getD_reverse (row : List Int) (i : Nat) (h : i < row.length) :
    row.reverse.getD i 0 = row.getD (row.length - 1 - i) 0 := by
  rw [List.getD_eq_getElem _ 0 (by simpa using h),
    List.getD_eq_getElem _ 0 (by omega), List.getElem_reverse]

/-- `getD` commutes with mapping `reverse` over the rows. -/
theorem getD_map_reverse (g : List (List Int)) (n : Nat) :
    (g.map List.reverse).getD n [] = (g.getD n []).reverse := by
  by_cases h : n < g.length
  · rw [List.getD_eq_getElem _ [] (by simpa using h), List.getD_eq_getElem _ [] h,
      List.getElem_map]
  · rw [List.getD_eq_default _ [] (by simpa using not_lt.mp h),
      List.getD_eq_default _ [] (not_lt.mp h)]
    rfl

theorem reflectLR_length (g : List (List Int)) : (reflectLR g).length = g.length := by
  simp [reflectLR]

theorem reflectLR_headI_length (g : List (List Int)) :
    (reflectLR g).headI.length = g.headI.length := by
  cases g with
  | nil => rfl
  | cons a l => simp [reflectLR]

theorem reflectLR_rect {g : List (List Int)} (h : Rectangular g) :
    Rectangular (reflectLR g) := by
  intro row hrow
  unfold reflectLR at hrow
  obtain ⟨row0, hrow0, rfl⟩ := List.mem_map.mp hrow
  rw [List.length_reverse, reflectLR_headI_length]
  exact h row0 hrow0

theorem reflectLR_involutive (g : List (List Int)) : reflectLR (reflectLR g) = g := by
  unfold reflectLR
  rw [List.map_map]
  have h : (List.reverse ∘ List.reverse : List Int → List Int) = id :=
    funext fun l => List.reverse_reverse l
  rw [h, List.map_id]

theorem reflectLR_ne_nil {g : List (List Int)} (h : g ≠ []) : reflectLR g ≠ [] := by
  intro h2
  exact h (by simpa [reflectLR] using h2)

theorem reflectTB_length (g : List (List Int)) : (reflectTB g).length = g.length :=
  List.length_reverse g

theorem reflectTB_ne_nil {g : List (List Int)} (h : g ≠ []) : reflectTB g ≠ [] := by
  intro h2
  exact h (by simpa [reflectTB] using h2)

theorem reflectTB_involutive (g : List (List Int)) : reflectTB (reflectTB g) = g :=
  List.reverse_reverse g

theorem reflectTB_headI_length {g : List (List Int)} (hne : g ≠ [])
    (hrect : Rectangular g) : (reflectTB g).headI.length = g.headI.length := by
  have hmem : (reflectTB g).headI ∈ reflectTB g :=
    headI_mem_of_ne_nil (reflectTB_ne_nil hne)
  unfold reflectTB at hmem
  rw [List.mem_reverse] at hmem
  exact hrect _ hmem

theorem reflectTB_rect {g : List (List Int)} (hne : g ≠ []) (hrect : Rectangular g) :
    Rectangular (reflectTB g) := by
  intro row hrow
  unfold reflectTB at hrow
  rw [List.mem_reverse] at hrow
  rw [reflectTB_headI_length hne hrect]
  exact hrect row hrow

/-- A cell of the left-right reflected grid is the mirrored cell. -/
theorem cellD_reflectLR {g : List (List Int)} (hrect : Rectangular g)
    {a b : Int} (ha0 : 0 ≤ a) (haR : a < (g.length : Int)) (hb0 : 0 ≤ b)
    (hbC : b < (g.headI.length : Int)) :
    cellD (reflectLR g) a b = cellD g a ((g.headI.length : Int) - 1 - b) := by
  unfold cellD reflectLR
  rw [getD_map_reverse]
  have hmem : g.getD a.toNat [] ∈ g := by
    rw [List.getD_eq_getElem g [] (by omega)]
    exact List.getElem_mem (by omega)
  have hlen : (g.getD a.toNat []).length = g.headI.length := hrect _ hmem
  have hbN : b.toNat < (g.getD a.toNat []).length := by omega
  rw [getD_reverse _ _ hbN]
  have hidx : (g.getD a.toNat []).length - 1 - b.toNat =
      ((g.headI.length : Int) - 1 - b).toNat := by omega
  rw [hidx]

/-- A cell of the top-bottom reflected grid is the mirrored cell. -/
theorem cellD_reflectTB (g : List (List Int)) {a : Int} (ha0 : 0 ≤ a)
    (haR : a < (g.length : Int)) (b : Int) :
    cellD (reflectTB g) a b = cellD g ((g.length : Int) - 1 - a) b := by
  unfold cellD reflectTB
  have h1 : g.reverse.getD a.toNat [] = g.getD (g.length - 1 - a.toNat) [] := by
    rw [List.getD_eq_getElem _ [] (by simpa using (show a.toNat < g.length by omega)),
      List.getD_eq_getElem _ [] (by omega), List.getElem_reverse]
  rw [h1]
  have hidx : g.length - 1 - a.toNat = ((g.length : Int) - 1 - a).toNat := by omega
  rw [hidx]

/-- Every canonical identity of the grid also occurs in its left-right
reflection. -/
theorem canonSet_subset_reflectLR {g : List (List Int)} (hrect : Rectangular g)
    {k : Int} (hk : 1 ≤ k) :
    ∀ x ∈ specCanonSet g k, x ∈ specCanonSet (reflectLR g) k := by
  intro x hx
  rw [mem_specCanonSet] at hx
  obtain ⟨r, c, dr, dc, hr, hc, hd, hend, rfl⟩ := hx
  obtain ⟨he1, he2, he3, he4⟩ := hend
  have hc2 : g.headI.length - 1 - c < g.headI.length := by omega
  have hvals : specRunVals (reflectLR g) (r : Int) ((g.headI.length - 1 - c : Nat) : Int)
      dr (-dc) k.toNat = specRunVals g (r : Int) (c : Int) dr dc k.toNat := by
    unfold specRunVals
    apply List.map_congr_left
    intro t ht
    rw [List.mem_range] at ht
    have htk : (t : Int) ≤ k - 1 := by omega
    have hrt := step_in_range (k - 1) (by omega : (0 : Int) ≤ (r : Int))
      (by omega : ((r : Nat) : Int) < (g.length : Int)) he1 he2 (by omega) htk
    have hct := step_in_range (k - 1) (by omega : (0 : Int) ≤ (c : Int))
      (by omega : ((c : Nat) : Int) < (g.headI.length : Int)) he3 he4 (by omega) htk
    set u := (t : Int) * dc with hu
    have harg : ((g.headI.length - 1 - c : Nat) : Int) + (t : Int) * (-dc) =
        (g.headI.length : Int) - 1 - ((c : Int) + u) := by
      have hcc : ((g.headI.length - 1 - c : Nat) : Int) =
          (g.headI.length : Int) - 1 - (c : Int) := by omega
      rw [hcc, hu]; ring
    rw [harg, cellD_reflectLR hrect hrt.1 hrt.2 (by omega) (by omega)]
    have hback : (g.headI.length : Int) - 1 -
        ((g.headI.length : Int) - 1 - ((c : Int) + u)) = (c : Int) + u := by omega
    rw [hback]
  rw [← hvals]
  apply canon_mem_of_dir (reflectLR g) k hk r (g.headI.length - 1 - c) dr (-dc) ?_ ?_ ?_ ?_
  · rw [reflectLR_length]; exact hr
  · rw [reflectLR_headI_length]; exact hc2
  · unfold endInBounds
    rw [reflectLR_length, reflectLR_headI_length]
    set u := (k - 1) * dc with hu
    have hcc : ((g.headI.length - 1 - c : Nat) : Int) =
        (g.headI.length : Int) - 1 - (c : Int) := by omega
    have hneg : (k - 1) * (-dc) = -u := by rw [hu]; ring
    rw [hcc, hneg]
    exact ⟨by omega, by omega, by omega, by omega⟩
  · simp only [directions, List.mem_cons, Prod.mk.injEq, List.not_mem_nil,
      or_false] at hd
    rcases hd with ⟨e1, e2⟩ | ⟨e1, e2⟩ | ⟨e1, e2⟩ | ⟨e1, e2⟩ <;> subst e1 <;> subst e2 <;>
      decide

/-- Every canonical identity of the grid also occurs in its top-bottom
reflection. -/
theorem canonSet_subset_reflectTB {g : List (List Int)} (hne : g ≠ [])
    (hrect : Rectangular g) {k : Int} (hk : 1 ≤ k) :
    ∀ x ∈ specCanonSet g k, x ∈ specCanonSet (reflectTB g) k := by
  intro x hx
  rw [mem_specCanonSet] at hx
  obtain ⟨r, c, dr, dc, hr, hc, hd, hend, rfl⟩ := hx
  obtain ⟨he1, he2, he3, he4⟩ := hend
  have hr2 : g.length - 1 - r < g.length := by omega
  have hvals : specRunVals (reflectTB g) ((g.length - 1 - r : Nat) : Int) (c : Int)
      (-dr) dc k.toNat = specRunVals g (r : Int) (c : Int) dr dc k.toNat := by
    unfold specRunVals
    apply List.map_congr_left
    intro t ht
    rw [List.mem_range] at ht
    have htk : (t : Int) ≤ k - 1 := by omega
    have hrt := step_in_range (k - 1) (by omega : (0 : Int) ≤ (r : Int))
      (by omega : ((r : Nat) : Int) < (g.length : Int)) he1 he2 (by omega) htk
    set u := (t : Int) * dr with hu
    have harg : ((g.length - 1 - r : Nat) : Int) + (t : Int) * (-dr) =
        (g.length : Int) - 1 - ((r : Int) + u) := by
      have hcc : ((g.length - 1 - r : Nat) : Int) =
          (g.length : Int) - 1 - (r : Int) := by omega
      rw [hcc, hu]; ring
    rw [harg, cellD_reflectTB g (by omega) (by omega) _]
    have hback : (g.length : Int) - 1 -
        ((g.length : Int) - 1 - ((r : Int) + u)) = (r : Int) + u := by omega
    rw [hback]
  rw [← hvals]
  apply canon_mem_of_dir (reflectTB g) k hk (g.length - 1 - r) c (-dr) dc ?_ ?_ ?_ ?_
  · rw [reflectTB_length]; exact hr2
  · rw [reflectTB_headI_length hne hrect]; exact hc
  · unfold endInBounds
    rw [reflectTB_length, reflectTB_headI_length hne hrect]
    set u := (k - 1) * dr with hu
    have hcc : ((g.length - 1 - r : Nat) : Int) =
        (g.length : Int) - 1 - (r : Int) := by omega
    have hneg : (k - 1) * (-dr) = -u := by rw [hu]; ring
    rw [hcc, hneg]
    exact ⟨by omega, by omega, by omega, by omega⟩
  · simp only [directions, List.mem_cons, Prod.mk.injEq, List.not_mem_nil,
      or_false] at hd
    rcases hd with ⟨e1, e2⟩ | ⟨e1, e2⟩ | ⟨e1, e2⟩ | ⟨e1, e2⟩ <;> subst e1 <;> subst e2 <;>
      decide

/-- Left-right reflection preserves the canonical-identity set. -/
theorem canonSet_reflectLR_eq {g : List (List Int)} (hrect : Rectangular g)
    {k : Int} (hk : 1 ≤ k) : specCanonSet (reflectLR g) k = specCanonSet g k := by
  apply Finset.Subset.antisymm
  · intro x hx
    have h2 := canonSet_subset_reflectLR (reflectLR_rect hrect) hk x hx
    rw [reflectLR_involutive] at h2
    exact h2
  · intro x hx
    exact canonSet_subset_reflectLR hrect hk x hx

/-- Top-bottom reflection preserves the canonical-identity set. -/
theorem canonSet_reflectTB_eq {g : List (List Int)} (hne : g ≠ [])
    (hrect : Rectangular g) {k : Int} (hk : 1 ≤ k) :
    specCanonSet (reflectTB g) k = specCanonSet g k := by
  apply Finset.Subset.antisymm
  · intro x hx
    have h2 := canonSet_subset_reflectTB (reflectTB_ne_nil hne)
      (reflectTB_rect hne hrect) hk x hx
    rw [reflectTB_involutive] at h2
    exact h2
  · intro x hx
    exact canonSet_subset_reflectTB hne hrect hk x hx

/-- Single-step runs carry exactly one cell value. -/
theorem specRunVals_one (g : List (List Int)) (r c dr dc : Int) :
    specRunVals g r c dr dc 1 = [cellD g r c] := by
  simp [specRunVals, show List.range 1 = [0] from rfl]

/-- An in-bounds cell value occurs in the flattened grid. -/
theorem cellD_mem_flatten {g : List (List Int)} (hrect : Rectangular g) {r c : Nat}
    (hr : r < g.length) (hc : c < g.headI.length) :
    cellD g (r : Int) (c : Int) ∈ g.flatten := by
  rw [List.mem_flatten]
  have hmemr : g.getD r [] ∈ g := by
    rw [List.getD_eq_getElem g [] hr]; exact List.getElem_mem hr
  refine ⟨g.getD r [], hmemr, ?_⟩
  unfold cellD
  rw [Int.toNat_natCast, Int.toNat_natCast]
  have hcl : c < (g.getD r []).length := by rw [hrect _ hmemr]; exact hc
  rw [List.getD_eq_getElem _ 0 hcl]
  exact List.getElem_mem hcl

/-- Every value of the flattened grid is an in-bounds cell value. -/
theorem flatten_mem_cellD {g : List (List Int)} (hrect : Rectangular g) {v : Int}
    (hv : v ∈ g.flatten) :
    ∃ (r c : Nat), r < g.length ∧ c < g.headI.length ∧
      cellD g (r : Int) (c : Int) = v := by
  rw [List.mem_flatten] at hv
  obtain ⟨row, hrow, hmem⟩ := hv
  obtain ⟨r, hr, hrowr⟩ := List.mem_iff_getElem.mp hrow
  obtain ⟨c, hc, hvc⟩ := List.mem_iff_getElem.mp hmem
  refine ⟨r, c, hr, by rw [← hrect row hrow]; exact hc, ?_⟩
  unfold cellD
  rw [Int.toNat_natCast, Int.toNat_natCast, List.getD_eq_getElem g [] hr, hrowr,
    List.getD_eq_getElem row 0 hc, hvc]

/-!
### The claims
-/

/-- C1: for a rectangular grid with at least one row and one column and
`1 ≤ k ≤ min(rows, cols)`, `find_greatest_product_of_contiguous_integers`
returns exactly the maximum run product over all eight directions, and the
eight-direction maximum coincides with the four-base-direction maximum
(reversing a run does not change its product). -/
theorem find_greatest_product_eight_direction_oracle
    (g : List (List Int)) (k : Int) (hrect : Rectangular g) (hR : 0 < g.length)
    (hk1 : 1 ≤ k) (hkR : k ≤ (g.length : Int)) (hkC : k ≤ (g.headI.length : Int)) :
    (∃ m, specMaxProduct allDirections g k = some m ∧
      find_greatest_product_of_contiguous_integers g k = Except.ok m) ∧
    specMaxProduct allDirections g k = specMaxProduct directions g k := by
  have h84 := specMaxProduct_all_eq_base g k hk1
  refine ⟨?_, h84⟩
  have hnil : specProducts directions g k ≠ [] := specProducts_base_ne_nil g k hk1 hR hkC
  obtain ⟨m, hm⟩ : ∃ m, listMax (specProducts directions g k) = some m := by
    cases hl : specProducts directions g k with
    | nil => exact absurd hl hnil
    | cons x xs => exact ⟨xs.foldl max x, rfl⟩
  refine ⟨m, ?_, ?_⟩
  · rw [h84]; exact hm
  · have hne : g ≠ [] := by intro h; rw [h] at hR; exact absurd hR (by simp)
    rw [find_eq_of_valid g k hk1 hne hrect, hm]
    rfl

/-- Witness for C1 at the 2×2 grid `[[1, 2], [3, 4]]` with `k = 2`. -/
theorem find_greatest_product_eight_direction_oracle_witness :
    (Rectangular [[1, 2], [3, 4]] ∧ 0 < ([[1, 2], [3, 4]] : List (List Int)).length ∧
      (1 : Int) ≤ 2 ∧ (2 : Int) ≤ (([[1, 2], [3, 4]] : List (List Int)).length : Int) ∧
      (2 : Int) ≤ (([[1, 2], [3, 4]] : List (List Int)).headI.length : Int)) ∧
    ((∃ m, specMaxProduct allDirections [[1, 2], [3, 4]] 2 = some m ∧
      find_greatest_product_of_contiguous_integers [[1, 2], [3, 4]] 2 = Except.ok m) ∧
    specMaxProduct allDirections [[1, 2], [3, 4]] 2 =
      specMaxProduct directions [[1, 2], [3, 4]] 2) :=
  ⟨⟨by decide, by decide, by decide, by decide, by decide⟩,
    find_greatest_product_eight_direction_oracle [[1, 2], [3, 4]] 2 (by decide) (by decide)
      (by decide) (by decide) (by decide)⟩

/-- C3: `find_greatest_product_of_contiguous_integers` fails exactly when
`k < 1`, the grid has no rows, or some row's length differs from the first
row's length; the validation precedes the traversal in the definition, so no
cell is read when it fails. -/
theorem find_greatest_product_error_iff (g : List (List Int)) (k : Int) :
    (∃ e, find_greatest_product_of_contiguous_integers g k = Except.error e) ↔
      (k < 1 ∨ g = [] ∨ ∃ row ∈ g, row.length ≠ g.headI.length) := by
  constructor
  · rintro ⟨e, he⟩
    by_contra hcon
    push_neg at hcon
    obtain ⟨hk, hne, hrect⟩ := hcon
    rw [find_eq_of_valid g k (by omega) hne hrect] at he
    exact Except.noConfusion he
  · intro h
    unfold find_greatest_product_of_contiguous_integers
    by_cases hk : k < 1
    · rw [if_pos hk]; exact ⟨_, rfl⟩
    by_cases hne : g.isEmpty
    · rw [if_neg hk, if_pos hne]; exact ⟨_, rfl⟩
    have hbad : ∃ row ∈ g, row.length ≠ g.headI.length := by
      rcases h with h | h | h
      · exact absurd h hk
      · exact absurd (by simp [h] : g.isEmpty = true) hne
      · exact h
    have hany : (g.any fun row => row.length != g.headI.length) = true := by
      rw [List.any_eq_true]
      obtain ⟨row, hrow, hne2⟩ := hbad
      exact ⟨row, hrow, by simpa using hne2⟩
    rw [if_neg hk, if_neg hne, if_pos hany]
    exact ⟨_, rfl⟩

/-- C5: when `k` exceeds both grid dimensions, no run fits and the fallback
value 0 is returned, with no error. -/
theorem find_greatest_product_no_fit_zero (g : List (List Int)) (k : Int)
    (hne : g ≠ []) (hrect : Rectangular g)
    (hR : (g.length : Int) < k) (hC : (g.headI.length : Int) < k) :
    find_greatest_product_of_contiguous_integers g k = Except.ok 0 := by
  have hlen : 0 < g.length := List.length_pos.mpr hne
  have hk : 1 ≤ k := by omega
  rw [find_eq_of_valid g k hk hne hrect]
  have hempty : specProducts directions g k = [] := by
    cases hl : specProducts directions g k with
    | nil => rfl
    | cons p ps =>
      exfalso
      have hp : p ∈ specProducts directions g k := by
        rw [hl]; exact List.mem_cons_self p ps
      rw [mem_specProducts] at hp
      obtain ⟨r, c, dr, dc, hr, hc, hd, hend, _⟩ := hp
      simp only [directions, List.mem_cons, Prod.mk.injEq, List.not_mem_nil,
        or_false] at hd
      rcases hd with ⟨e1, e2⟩ | ⟨e1, e2⟩ | ⟨e1, e2⟩ | ⟨e1, e2⟩ <;> subst e1 <;> subst e2 <;>
        (unfold endInBounds at hend; omega)
  rw [hempty]
  rfl

/-- Witness for C5 at the 2×2 grid `[[1, 2], [3, 4]]` with `k = 3`. -/
theorem find_greatest_product_no_fit_zero_witness :
    (([[1, 2], [3, 4]] : List (List Int)) ≠ [] ∧ Rectangular [[1, 2], [3, 4]] ∧
      (([[1, 2], [3, 4]] : List (List Int)).length : Int) < 3 ∧
      (([[1, 2], [3, 4]] : List (List Int)).headI.length : Int) < 3) ∧
    find_greatest_product_of_contiguous_integers [[1, 2], [3, 4]] 3 = Except.ok 0 :=
  ⟨⟨by decide, by decide, by decide, by decide⟩,
    find_greatest_product_no_fit_zero [[1, 2], [3, 4]] 3 (by decide) (by decide)
      (by decide) (by decide)⟩

/-- C7: for a rectangular grid with at least one row and one column,
`find_greatest_product_of_contiguous_integers` at `k = 1` returns the
maximum single-cell value of the grid. -/
theorem find_greatest_product_one_max_cell (g : List (List Int))
    (hrect : Rectangular g) (hR : 0 < g.length) (hC : 0 < g.headI.length) :
    ∃ m, gridMaxVal g = some m ∧
      find_greatest_product_of_contiguous_integers g 1 = Except.ok m := by
  have hcong : listMax (specProducts directions g 1) = listMax g.flatten :=
    listMax_congr (fun x hx => (mem_specProducts_one hrect).mp hx)
      (fun x hx => (mem_specProducts_one hrect).mpr hx)
  have hnil : specProducts directions g 1 ≠ [] :=
    specProducts_base_ne_nil g 1 (le_refl 1) hR (by omega)
  obtain ⟨m, hm⟩ : ∃ m, listMax (specProducts directions g 1) = some m := by
    cases hl : specProducts directions g 1 with
    | nil => exact absurd hl hnil
    | cons x xs => exact ⟨xs.foldl max x, rfl⟩
  refine ⟨m, ?_, ?_⟩
  · unfold gridMaxVal
    rw [← hcong]
    exact hm
  · have hne : g ≠ [] := by intro h; rw [h] at hR; exact absurd hR (by simp)
    rw [find_eq_of_valid g 1 (le_refl 1) hne hrect, hm]
    rfl

/-- Witness for C7 at the 2×2 grid `[[1, 2], [3, 4]]`. -/
theorem find_greatest_product_one_max_cell_witness :
    (Rectangular [[1, 2], [3, 4]] ∧ 0 < ([[1, 2], [3, 4]] : List (List Int)).length ∧
      0 < ([[1, 2], [3, 4]] : List (List Int)).headI.length) ∧
    ∃ m, gridMaxVal [[1, 2], [3, 4]] = some m ∧
      find_greatest_product_of_contiguous_integers [[1, 2], [3, 4]] 1 = Except.ok m :=
  ⟨⟨by decide, by decide, by decide⟩,
    find_greatest_product_one_max_cell [[1, 2], [3, 4]] (by decide) (by decide) (by decide)⟩

/-- C2: on a non-empty rectangular grid with `k ≥ 1`,
`count_unique_combinations_of_length_k` returns the cardinality of the set of
canonical identities of all in-bounds base-direction runs, and two value
sequences share a canonical identity exactly when they are equal directly or
after reversal. -/
theorem count_unique_eq_canonical_card (g : List (List Int)) (k : Int)
    (hne : g ≠ []) (hrect : Rectangular g) (hk : 1 ≤ k) :
    count_unique_combinations_of_length_k g k = Except.ok (specCanonSet g k).card ∧
    ∀ s t : List Int, canonical s = canonical t ↔ (s = t ∨ s = t.reverse) :=
  ⟨count_eq_of_rect g hne hrect k, fun _ _ => canonical_eq_iff⟩

/-- Witness for C2 at the 2×2 grid `[[1, 2], [3, 4]]` with `k = 2`. -/
theorem count_unique_eq_canonical_card_witness :
    (([[1, 2], [3, 4]] : List (List Int)) ≠ [] ∧ Rectangular [[1, 2], [3, 4]] ∧
      (1 : Int) ≤ 2) ∧
    (count_unique_combinations_of_length_k [[1, 2], [3, 4]] 2 =
        Except.ok (specCanonSet [[1, 2], [3, 4]] 2).card ∧
      ∀ s t : List Int, canonical s = canonical t ↔ (s = t ∨ s = t.reverse)) :=
  ⟨⟨by decide, by decide, by decide⟩,
    count_unique_eq_canonical_card [[1, 2], [3, 4]] 2 (by decide) (by decide) (by decide)⟩

/-- C4 counterexample: `count_unique_combinations_of_length_k` performs no
validation; on the rectangular grid `[[1, 2], [3, 4]]` with `k = 0` it
returns the count 1 (the empty sequence is inserted once) instead of raising
an `InvalidParameter` error as the claim requires. -/
theorem count_unique_k_zero_counterexample :
    count_unique_combinations_of_length_k [[1, 2], [3, 4]] 0 = Except.ok 1 ∧
    ¬ ∃ e, count_unique_combinations_of_length_k [[1, 2], [3, 4]] 0 =
      Except.error e := by
  have h1 : count_unique_combinations_of_length_k [[1, 2], [3, 4]] 0 =
      Except.ok 1 := rfl
  refine ⟨h1, ?_⟩
  rintro ⟨e, he⟩
  rw [h1] at he
  exact Except.noConfusion he

/-- C4 (amended): `count_unique_combinations_of_length_k` has no input
validation at all: on every non-empty rectangular grid it returns a count for
every `k` — including `k = 0` and `k < 1` — and never raises any error. (On a
non-rectangular grid it raises no `InvalidParameter` either; it either
returns a count or fails with an `IndexError` during the traversal itself.) -/
theorem count_unique_no_validation (g : List (List Int)) (k : Int)
    (hne : g ≠ []) (hrect : Rectangular g) :
    ∃ n, count_unique_combinations_of_length_k g k = Except.ok n :=
  ⟨(specCanonSet g k).card, count_eq_of_rect g hne hrect k⟩

/-- Witness for the amended C4 at the 2×2 grid `[[1, 2], [3, 4]]` with
`k = 0`. -/
theorem count_unique_no_validation_witness :
    (([[1, 2], [3, 4]] : List (List Int)) ≠ [] ∧ Rectangular [[1, 2], [3, 4]]) ∧
    ∃ n, count_unique_combinations_of_length_k [[1, 2], [3, 4]] 0 = Except.ok n :=
  ⟨⟨by decide, by decide⟩,
    count_unique_no_validation [[1, 2], [3, 4]] 0 (by decide) (by decide)⟩

/-- C6: on a non-empty rectangular grid with `k ≥ 1`, the unique-run count is
unchanged by reflecting the grid left-right or top-bottom. -/
theorem count_unique_reflect_invariant (g : List (List Int)) (k : Int)
    (hne : g ≠ []) (hrect : Rectangular g) (hk : 1 ≤ k) :
    count_unique_combinations_of_length_k (reflectLR g) k =
      count_unique_combinations_of_length_k g k ∧
    count_unique_combinations_of_length_k (reflectTB g) k =
      count_unique_combinations_of_length_k g k := by
  constructor
  · rw [count_eq_of_rect (reflectLR g) (reflectLR_ne_nil hne) (reflectLR_rect hrect) k,
      count_eq_of_rect g hne hrect k, canonSet_reflectLR_eq hrect hk]
  · rw [count_eq_of_rect (reflectTB g) (reflectTB_ne_nil hne)
      (reflectTB_rect hne hrect) k,
      count_eq_of_rect g hne hrect k, canonSet_reflectTB_eq hne hrect hk]

/-- Witness for C6 at the 2×2 grid `[[1, 2], [3, 4]]` with `k = 2`. -/
theorem count_unique_reflect_invariant_witness :
    (([[1, 2], [3, 4]] : List (List Int)) ≠ [] ∧ Rectangular [[1, 2], [3, 4]] ∧
      (1 : Int) ≤ 2) ∧
    (count_unique_combinations_of_length_k (reflectLR [[1, 2], [3, 4]]) 2 =
        count_unique_combinations_of_length_k [[1, 2], [3, 4]] 2 ∧
      count_unique_combinations_of_length_k (reflectTB [[1, 2], [3, 4]]) 2 =
        count_unique_combinations_of_length_k [[1, 2], [3, 4]] 2) :=
  ⟨⟨by decide, by decide, by decide⟩,
    count_unique_reflect_invariant [[1, 2], [3, 4]] 2 (by decide) (by decide) (by decide)⟩

/-- C9: on a non-empty rectangular grid, `count_unique_combinations_of_length_k`
at `k = 1` returns the number of distinct integer values occurring in the
grid. -/
theorem count_unique_one_distinct_values (g : List (List Int))
    (hne : g ≠ []) (hrect : Rectangular g) :
    count_unique_combinations_of_length_k g 1 = Except.ok (distinctValueCount g) := by
  rw [count_eq_of_rect g hne hrect 1]
  unfold distinctValueCount
  congr 1
  have himg : specCanonSet g 1 = g.flatten.toFinset.image (fun v => [v]) := by
    apply Finset.ext
    intro x
    rw [mem_specCanonSet, Finset.mem_image]
    constructor
    · rintro ⟨r, c, dr, dc, hr, hc, hd, hend, rfl⟩
      refine ⟨cellD g (r : Int) (c : Int), ?_, ?_⟩
      · rw [List.mem_toFinset]; exact cellD_mem_flatten hrect hr hc
      · rw [show (1 : Int).toNat = 1 from rfl, specRunVals_one, canonical_singleton]
    · rintro ⟨v, hv, rfl⟩
      rw [List.mem_toFinset] at hv
      obtain ⟨r, c, hr, hc, hvc⟩ := flatten_mem_cellD hrect hv
      refine ⟨r, c, 0, 1, hr, hc, by decide, ?_, ?_⟩
      · unfold endInBounds
        exact ⟨by omega, by omega, by omega, by omega⟩
      · rw [show (1 : Int).toNat = 1 from rfl, specRunVals_one, canonical_singleton, hvc]
  rw [himg, Finset.card_image_of_injective _
    (fun a b hab => ((List.cons.injEq a [] b []).mp hab).1)]

/-- Witness for C9 at the 2×2 grid `[[1, 2], [3, 4]]`. -/
theorem count_unique_one_distinct_values_witness :
    (([[1, 2], [3, 4]] : List (List Int)) ≠ [] ∧ Rectangular [[1, 2], [3, 4]]) ∧
    count_unique_combinations_of_length_k [[1, 2], [3, 4]] 1 =
      Except.ok (distinctValueCount [[1, 2], [3, 4]]) :=
  ⟨⟨by decide, by decide⟩,
    count_unique_one_distinct_values [[1, 2], [3, 4]] (by decide) (by decide)⟩

/-- C10: on the empty grid (zero rows), `count_unique_combinations_of_length_k`
returns 0 for every `k` without raising any error: the column count is
guarded to 0 and the loops enumerate nothing. -/
theorem count_unique_empty_grid (k : Int) :
    count_unique_combinations_of_length_k [] k = Except.ok 0 := rfl

/-- The sample grid's canonical set, split into two evaluation halves. -/
theorem sampleCount_split : specCanonSet sampleGrid 3 =
    ((List.take 200 (runsOver directions sampleGrid.length
        sampleGrid.headI.length)).filterMap (canonOf sampleGrid 3)).toFinset ∪
    ((List.drop 200 (runsOver directions sampleGrid.length
        sampleGrid.headI.length)).filterMap (canonOf sampleGrid 3)).toFinset := by
  unfold specCanonSet specCanonList
  conv_lhs => rw [← List.take_append_drop 200
    (runsOver directions sampleGrid.length sampleGrid.headI.length)]
  rw [List.filterMap_append, List.toFinset_append]

set_option maxRecDepth 40000 in
set_option maxHeartbeats 16000000 in
/-- The cardinality of the sample grid's canonical set, evaluated in
halves. -/
theorem sampleCount_card :
    (((List.take 200 (runsOver directions sampleGrid.length
        sampleGrid.headI.length)).filterMap (canonOf sampleGrid 3)).toFinset ∪
    ((List.drop 200 (runsOver directions sampleGrid.length
        sampleGrid.headI.length)).filterMap (canonOf sampleGrid 3)).toFinset).card
    = 288 := rfl

set_option maxRecDepth 40000 in
set_option maxHeartbeats 2000000 in
/-- The sample grid's unique-run count at `k = 3` is 288. -/
theorem sampleCount288 :
    count_unique_combinations_of_length_k sampleGrid 3 = Except.ok 288 := by
  rw [count_eq_of_rect sampleGrid (by decide) (by decide) 3, sampleCount_split,
    sampleCount_card]

set_option maxRecDepth 40000 in
set_option maxHeartbeats 8000000 in
/-- First half of the sample grid's product search. -/
theorem sampleProd_half1 :
    (List.take 200 (runsOver directions sampleGrid.length
        sampleGrid.headI.length)).foldlM
      (fgpStep sampleGrid sampleGrid.length sampleGrid.headI.length 3) none =
      Except.ok (some 667755) := rfl

set_option maxRecDepth 40000 in
set_option maxHeartbeats 8000000 in
/-- Second half of the sample grid's product search, resumed from the first
half's state. -/
theorem sampleProd_half2 :
    (Except.ok (some 667755) >>= fun init =>
      (List.drop 200 (runsOver directions sampleGrid.length
          sampleGrid.headI.length)).foldlM
        (fgpStep sampleGrid sampleGrid.length sampleGrid.headI.length 3) init :
      Except String (Option Int)) = Except.ok (some 667755) := rfl

set_option maxRecDepth 40000 in
set_option maxHeartbeats 2000000 in
/-- The sample grid's greatest product at `k = 3` is 667755. -/
theorem sampleProd667755 :
    find_greatest_product_of_contiguous_integers sampleGrid 3 =
      Except.ok 667755 := by
  show ((runsOver directions sampleGrid.length sampleGrid.headI.length).foldlM
      (fgpStep sampleGrid sampleGrid.length sampleGrid.headI.length 3) none >>=
      fun acc => pure (acc.getD 0) : Except String Int) = Except.ok 667755
  conv_lhs => rw [← List.take_append_drop 200
    (runsOver directions sampleGrid.length sampleGrid.headI.length)]
  conv_lhs => rw [List.foldlM_append]
  conv_lhs => rw [sampleProd_half1]
  conv_lhs => rw [sampleProd_half2]
  rfl

/-- C8: on the documented 10×10 sample grid with `k = 3`, the unique-run
count is 288 and the greatest product is 667755. -/
theorem sample_grid_results :
    count_unique_combinations_of_length_k sampleGrid 3 = Except.ok 288 ∧
    find_greatest_product_of_contiguous_integers sampleGrid 3 = Except.ok 667755 :=
  ⟨sampleCount288, sampleProd667755⟩

end RMSTest
